import Mathlib

/-!
Verification of the image-analysis snippet (src/python_tool/ai_example.py)
against its natural-language specification.

The Python function `analyze_image` is embedded shallowly:
* text is modelled as `List Char`;
* Python `str.strip()` is `pyStrip` (dropping Unicode whitespace from both ends);
* `json.loads` is modelled by `loads`, a fuel-based recursive-descent parser
  following CPython's `json` module (strict JSON plus the `NaN` / `Infinity` /
  `-Infinity` constants, strings with escapes and surrogate-pair combination,
  objects as insertion-ordered key/value lists with last-duplicate-wins);
* the response post-processing of lines 46-71 is `extract`;
* the whole function, with the file system and the network treated as an
  explicit environment, is `analyze_image`; it also reports the storage reads
  and backend invocations it performs, so that frame claims can be stated.
-/

namespace AIExample

abbrev Text := List Char

/-- Characters removed by Python `str.strip()` (Unicode whitespace). -/
def pySpaceChars : Text :=
  ['\t', '\n', '\x0b', '\x0c', '\r', '\x1c', '\x1d', '\x1e', '\x1f', ' ',
   '\x85', '\xa0', ' ', ' ', ' ', ' ', ' ', ' ',
   ' ', ' ', ' ', ' ', ' ', ' ', ' ',
   ' ', ' ', ' ', '　']

def pyIsSpace (c : Char) : Bool := pySpaceChars.contains c

/-- Python `str.strip()`: remove whitespace from both ends. -/
def pyStrip (t : Text) : Text :=
  (((t.dropWhile pyIsSpace).reverse.dropWhile pyIsSpace)).reverse

/-- Whitespace accepted between JSON tokens by `json.loads` (RFC 8259). -/
def jsonWs (c : Char) : Bool := c == ' ' || c == '\t' || c == '\n' || c == '\r'

def skipWs (t : Text) : Text := t.dropWhile jsonWs

/-- Is `pat` a prefix of the second list (Python `str.startswith`)? -/
def isPrefixList : Text → Text → Bool
  | [], _ => true
  | _ :: _, [] => false
  | a :: as, b :: bs => a == b && isPrefixList as bs

def startsWith (t pat : Text) : Bool := isPrefixList pat t

/-- Python `str.endswith`. -/
def endsWith (t pat : Text) : Bool := isPrefixList pat.reverse t.reverse

/-- Does `pat` occur as a contiguous subsequence of the text? -/
def hasSub : Text → Text → Bool
  | [], pat => isPrefixList pat []
  | c :: r, pat => isPrefixList pat (c :: r) || hasSub r pat

/-- JSON values as produced by `json.loads`.  Strings (and object keys) are
decoded code points; numbers keep their source lexeme, which is enough for
every claim (no claim depends on numeric semantics). -/
inductive JVal where
  | obj : List (List Nat × JVal) → JVal
  | arr : List JVal → JVal
  | str : List Nat → JVal
  | num : Text → JVal
  | bool : Bool → JVal
  | null : JVal

/-- Insertion into a Python `dict` built from a pair list: a repeated key keeps
its first position but takes the latest value. -/
def dictAdd (m : List (List Nat × JVal)) (k : List Nat) (v : JVal) :
    List (List Nat × JVal) :=
  if m.any (fun p => p.1 = k) then
    m.map (fun p => if p.1 = k then (k, v) else p)
  else m ++ [(k, v)]

def hexVal (c : Char) : Option Nat :=
  if '0' ≤ c ∧ c ≤ '9' then some (c.toNat - 48)
  else if 'a' ≤ c ∧ c ≤ 'f' then some (c.toNat - 87)
  else if 'A' ≤ c ∧ c ≤ 'F' then some (c.toNat - 55)
  else none

def hex4 (a b c d : Char) : Option Nat :=
  match hexVal a, hexVal b, hexVal c, hexVal d with
  | some x, some y, some z, some w => some (x * 4096 + y * 256 + z * 16 + w)
  | _, _, _, _ => none

mutual

/-- CPython `scanstring` (strict mode), starting after the opening quote:
plain characters are accumulated, raw control characters below `0x20` are
rejected, a backslash hands over to the escape scanner. -/
def parseStr : Nat → Text → List Nat → Option (List Nat × Text)
  | 0, _, _ => none
  | _ + 1, [], _ => none
  | fuel + 1, c :: r, acc =>
    if c = '"' then some (acc.reverse, r)
    else if c = '\\' then parseEsc fuel r acc
    else if c.toNat < 0x20 then none
    else parseStr fuel r (c.toNat :: acc)

/-- The character after a backslash: the eight simple escapes or `\u`. -/
def parseEsc : Nat → Text → List Nat → Option (List Nat × Text)
  | 0, _, _ => none
  | _ + 1, [], _ => none
  | fuel + 1, e :: r2, acc =>
    if e = '"' then parseStr fuel r2 (34 :: acc)
    else if e = '\\' then parseStr fuel r2 (92 :: acc)
    else if e = '/' then parseStr fuel r2 (47 :: acc)
    else if e = 'b' then parseStr fuel r2 (8 :: acc)
    else if e = 'f' then parseStr fuel r2 (12 :: acc)
    else if e = 'n' then parseStr fuel r2 (10 :: acc)
    else if e = 'r' then parseStr fuel r2 (13 :: acc)
    else if e = 't' then parseStr fuel r2 (9 :: acc)
    else if e = 'u' then parseUEsc fuel r2 acc
    else none

/-- The four hex digits of a `\uXXXX` escape; a high surrogate looks for a
directly following `\uXXXX` low surrogate (CPython combines the pair). -/
def parseUEsc : Nat → Text → List Nat → Option (List Nat × Text)
  | 0, _, _ => none
  | fuel + 1, a :: b :: c2 :: d :: r3, acc =>
    match hex4 a b c2 d with
    | none => none
    | some n =>
      if 0xd800 ≤ n ∧ n ≤ 0xdbff then parseUPair fuel n r3 acc
      else parseStr fuel r3 (n :: acc)
  | _ + 1, _, _ => none

/-- After a high surrogate `n`: if `\uXXXX` follows, its hex digits must be
valid; a low surrogate is combined with `n`, anything else leaves `n` alone. -/
def parseUPair : Nat → Nat → Text → List Nat → Option (List Nat × Text)
  | 0, _, _, _ => none
  | fuel + 1, n, t, acc =>
    match t with
    | x :: y :: r4 =>
      if x = '\\' ∧ y = 'u' then
        match r4 with
        | a2 :: b2 :: c3 :: d2 :: r5 =>
          match hex4 a2 b2 c3 d2 with
          | none => none
          | some n2 =>
            if 0xdc00 ≤ n2 ∧ n2 ≤ 0xdfff then
              parseStr fuel r5 ((0x10000 + (n - 0xd800) * 1024 + (n2 - 0xdc00)) :: acc)
            else parseStr fuel t (n :: acc)
        | _ => none
      else parseStr fuel t (n :: acc)
    | _ => parseStr fuel t (n :: acc)

end

/-- Integer part of CPython's `NUMBER_RE`: `-?(0|[1-9][0-9]*)` without the
sign, which the caller handles. -/
def parseIntPart : Text → Option (Text × Text)
  | [] => none
  | c :: r =>
    if c = '0' then some (['0'], r)
    else if c.isDigit then some (c :: r.takeWhile Char.isDigit, r.dropWhile Char.isDigit)
    else none

/-- Optional fraction `(\.[0-9]+)?`; consumed only when complete. -/
def parseFracPart : Text → Text × Text
  | '.' :: c :: r =>
    if c.isDigit then ('.' :: c :: r.takeWhile Char.isDigit, r.dropWhile Char.isDigit)
    else ([], '.' :: c :: r)
  | t => ([], t)

/-- Optional exponent `([eE][-+]?[0-9]+)?`; consumed only when complete. -/
def parseExpPart : Text → Text × Text
  | e :: rest =>
    if e = 'e' ∨ e = 'E' then
      match rest with
      | s :: r2 =>
        if s = '+' ∨ s = '-' then
          match r2 with
          | c :: r3 =>
            if c.isDigit then (e :: s :: c :: r3.takeWhile Char.isDigit, r3.dropWhile Char.isDigit)
            else ([], e :: rest)
          | [] => ([], e :: rest)
        else if s.isDigit then (e :: s :: r2.takeWhile Char.isDigit, r2.dropWhile Char.isDigit)
        else ([], e :: rest)
      | [] => ([], [e])
    else ([], e :: rest)
  | [] => ([], [])

/-- A JSON number lexeme, as matched by CPython's `NUMBER_RE`. -/
def parseNumber (t : Text) : Option (Text × Text) :=
  match t with
  | '-' :: r =>
    match parseIntPart r with
    | none => none
    | some (i, r1) =>
      let fr := parseFracPart r1
      let ex := parseExpPart fr.2
      some ('-' :: (i ++ fr.1 ++ ex.1), ex.2)
  | _ =>
    match parseIntPart t with
    | none => none
    | some (i, r1) =>
      let fr := parseFracPart r1
      let ex := parseExpPart fr.2
      some (i ++ fr.1 ++ ex.1, ex.2)

mutual

/-- CPython `scan_once`: dispatch on the first character; the input position
is assumed to be at a non-whitespace character. -/
def parseValue : Nat → Text → Option (JVal × Text)
  | 0, _ => none
  | _ + 1, [] => none
  | fuel + 1, c :: r =>
    if c = '{' then parseObjBody fuel r
    else if c = '[' then parseArrBody fuel r
    else if c = '"' then
      match parseStr (r.length + 1) r [] with
      | some (s, r2) => some (.str s, r2)
      | none => none
    else if c = 'n' then
      if r.take 3 = ['u', 'l', 'l'] then some (.null, r.drop 3) else none
    else if c = 't' then
      if r.take 3 = ['r', 'u', 'e'] then some (.bool true, r.drop 3) else none
    else if c = 'f' then
      if r.take 4 = ['a', 'l', 's', 'e'] then some (.bool false, r.drop 4) else none
    else if c = 'N' then
      if r.take 2 = ['a', 'N'] then some (.num ['N', 'a', 'N'], r.drop 2) else none
    else if c = 'I' then
      if r.take 7 = ['n', 'f', 'i', 'n', 'i', 't', 'y'] then
        some (.num ['I', 'n', 'f', 'i', 'n', 'i', 't', 'y'], r.drop 7)
      else none
    else if c = '-' ∧ r.take 8 = ['I', 'n', 'f', 'i', 'n', 'i', 't', 'y'] then
      some (.num ('-' :: ['I', 'n', 'f', 'i', 'n', 'i', 't', 'y']), r.drop 8)
    else
      match parseNumber (c :: r) with
      | some (lex, r2) => some (.num lex, r2)
      | none => none

/-- CPython `JSONObject`, entered just after the opening brace. -/
def parseObjBody : Nat → Text → Option (JVal × Text)
  | 0, _ => none
  | fuel + 1, t =>
    match skipWs t with
    | c :: r => if c = '}' then some (.obj [], r) else parseMembers fuel (c :: r) []
    | [] => none

/-- The member loop of `JSONObject`: the head of the input must be the opening
quote of a key. -/
def parseMembers : Nat → Text → List (List Nat × JVal) → Option (JVal × Text)
  | 0, _, _ => none
  | fuel + 1, t, acc =>
    match t with
    | c :: r =>
      if c = '"' then
        match parseStr (r.length + 1) r [] with
        | some (key, r1) =>
          match skipWs r1 with
          | d :: r2 =>
            if d = ':' then
              match parseValue fuel (skipWs r2) with
              | some (v, r3) =>
                match skipWs r3 with
                | e :: r4 =>
                  if e = '}' then some (.obj (dictAdd acc key v), r4)
                  else if e = ',' then parseMembers fuel (skipWs r4) (dictAdd acc key v)
                  else none
                | [] => none
              | none => none
            else none
          | [] => none
        | none => none
      else none
    | [] => none

/-- CPython `JSONArray`, entered just after the opening bracket. -/
def parseArrBody : Nat → Text → Option (JVal × Text)
  | 0, _ => none
  | fuel + 1, t =>
    match skipWs t with
    | c :: r => if c = ']' then some (.arr [], r) else parseElems fuel (c :: r) []
    | [] => none

/-- The element loop of `JSONArray`: the head of the input must start a value. -/
def parseElems : Nat → Text → List JVal → Option (JVal × Text)
  | 0, _, _ => none
  | fuel + 1, t, acc =>
    match parseValue fuel t with
    | some (v, r) =>
      match skipWs r with
      | c :: r2 =>
        if c = ']' then some (.arr (acc ++ [v]), r2)
        else if c = ',' then parseElems fuel (skipWs r2) (acc ++ [v])
        else none
      | [] => none
    | none => none

end

/-- `json.loads`: skip leading whitespace, parse one value, require that only
whitespace remains.  The fuel `3 * length + 4` dominates the recursion depth
(at most three nested calls per consumed character). -/
def loads (t : Text) : Option JVal :=
  match parseValue (3 * t.length + 4) (skipWs t) with
  | some (v, rest) => if skipWs rest = [] then some v else none
  | none => none

def fence : Text := ['`', '`', '`']

def jsonFence : Text := ['`', '`', '`', 'j', 's', 'o', 'n']

/-- Lines 50-56 of the source: strip a leading ```` ```json ```` (7 chars) or
```` ``` ```` (3 chars), then strip a trailing ```` ``` ```` if present. -/
def stripFences (t : Text) : Text :=
  let t1 := if startsWith t jsonFence then t.drop 7
            else if startsWith t fence then t.drop 3
            else t
  if endsWith t1 fence then t1.take (t1.length - 3) else t1

/-- The outcome of the response-parsing step (lines 46-71): either the parsed
JSON value is returned as-is, or the error dictionary carrying
`raw_response = response.text` (the original, untrimmed text). -/
inductive ExtractResult where
  | success (v : JVal)
  | malformed (raw : Text)

/-- Lines 46-71 of the source: strip, remove fence markers, strip again,
`json.loads`; on failure keep the original raw text. -/
def extract (raw : Text) : ExtractResult :=
  match loads (pyStrip (stripFences (pyStrip raw))) with
  | some v => .success v
  | none => .malformed raw

/-- What the spec's two-sided fence rule would do on a text with an unmatched
opening fence: parse the trimmed text with nothing stripped. -/
def extractNoFence (raw : Text) : ExtractResult :=
  match loads (pyStrip raw) with
  | some v => .success v
  | none => .malformed raw

/-- Only the opening fence of a trimmed text, as removed by lines 50-53. -/
def stripOpen (t : Text) : Text :=
  if startsWith t jsonFence then t.drop 7 else t.drop 3

/-- Wrap a text in a fenced block with the given language tag (empty tag for a
bare fence). -/
def fencedTag (tag T : Text) : Text :=
  '`' :: '`' :: '`' :: (tag ++ '\n' :: (T ++ ['\n', '`', '`', '`']))

def jsonTag : Text := ['j', 's', 'o', 'n']

/-! ## The full function, with the file system and network as an environment -/

/-- Outcome of `open(prompt_path).read()`: the file's text, a
`FileNotFoundError`, or any other exception Python file reading can raise
(`PermissionError`, `IsADirectoryError`, `UnicodeDecodeError`, ...). -/
inductive PromptOutcome where
  | ok (text : Text)
  | fileNotFound
  | otherError (msg : Text)

/-- Outcome of the `generate_content` call: the response text, or a raised
exception. -/
inductive BackendOutcome where
  | ok (text : Text)
  | exn (msg : Text)

/-- The arguments the backend actually receives (lines 34-41). -/
structure BackendCall where
  model : Text
  prompt : Text
  payload : List Nat
  mime : Text
deriving DecidableEq, Repr

/-- The external world: prompt files and the model backend. -/
structure Env where
  promptFS : Text → PromptOutcome
  backend : BackendCall → BackendOutcome

/-- The dictionaries `analyze_image` can return. -/
inductive AnalyzeResult where
  | parsed (v : JVal)
  | promptNotFound (path : Text)
  | apiError (msg : Text)
  | parseFailure (raw : Text)

def modelName : Text := "gemini-2.5-flash".toList

def mimeJpeg : Text := "image/jpeg".toList

def mimePng : Text := "image/png".toList

/-- Lines 12-71 of the source.  The first component is the returned value,
with `Except.error` marking an exception that propagates out of the function
(only non-`FileNotFoundError` exceptions of the prompt-loading `try` block,
lines 25-29, can do so).  The second and third components record the storage
reads and the backend invocations performed. -/
def analyze_image (env : Env) (imageBytes : List Nat) (promptPath : Text) :
    Except Text AnalyzeResult × List Text × List BackendCall :=
  match env.promptFS promptPath with
  | .fileNotFound => (Except.ok (.promptNotFound promptPath), [promptPath], [])
  | .otherError m => (Except.error m, [promptPath], [])
  | .ok promptText =>
    let call : BackendCall := ⟨modelName, promptText, imageBytes, mimeJpeg⟩
    match env.backend call with
    | .exn m => (Except.ok (.apiError m), [promptPath], [call])
    | .ok responseText =>
      match extract responseText with
      | .success v => (Except.ok (.parsed v), [promptPath], [call])
      | .malformed raw => (Except.ok (.parseFailure raw), [promptPath], [call])

/-! ## Concrete data for witnesses and counterexamples -/

def p0 : Text := "p.txt".toList

def promptText0 : Text := "Describe the image.".toList

/-- A backend response consisting of the JSON object text `\x7b\x7d`. -/
def respObj : Text := "\x7b\x7d".toList

/-- An environment whose prompt file loads fine and whose backend answers with
an empty JSON object. -/
def envGood : Env := ⟨fun _ => .ok promptText0, fun _ => .ok respObj⟩

/-- An environment whose prompt file raises an exception other than
`FileNotFoundError` when read (e.g. a binary file raising
`UnicodeDecodeError`). -/
def envBad : Env := ⟨fun _ => .otherError "UnicodeDecodeError".toList, fun _ => .ok respObj⟩

/-- The eight magic bytes of a PNG file. -/
def pngBytes : List Nat := [137, 80, 78, 71, 13, 10, 26, 10]

/-- A JSON object text padded with whitespace. -/
def exObjText : Text := " \x7b\"a\": 1\x7d ".toList

def exObjVal : JVal := .obj [([97], .num ['1'])]

/-- A trimmed text with an opening fence and no closing fence. -/
def exFenceOnly : Text := "```json\n\x7b\"a\": 1\x7d".toList

def yamlTag : Text := ['y', 'a', 'm', 'l']

/-- A trimmed text with a closing fence and no opening fence. -/
def exTrailFence : Text := "\x7b\"a\": 1\x7d```".toList

/-- A JSON array text: parsed by `json.loads` to a non-object value. -/
def exArr : Text := "[1, 2]".toList

/-- Non-JSON text with surrounding whitespace. -/
def exSpaceX : Text := " x ".toList

/-! ## List helpers -/

theorem isPrefixList_iff (p t : Text) : isPrefixList p t = true ↔ ∃ q, t = p ++ q := by
  induction p generalizing t with
  | nil => simp [isPrefixList]
  | cons a as ih =>
    cases t with
    | nil => simp [isPrefixList]
    | cons b bs =>
      simp only [isPrefixList, Bool.and_eq_true, beq_iff_eq, ih, List.cons_append,
        List.cons.injEq]
      constructor
      · rintro ⟨rfl, q, rfl⟩; exact ⟨q, rfl, rfl⟩
      · rintro ⟨q, h1, h2⟩; exact ⟨h1.symm, q, h2⟩

theorem dropWhile_head_false {p : Char → Bool} {l : List Char} {c : Char} {r : List Char}
    (h : l.dropWhile p = c :: r) : p c = false := by
  induction l with
  | nil => simp [List.dropWhile] at h
  | cons a l ih =>
    by_cases hp : p a = true
    · rw [List.dropWhile_cons_of_pos hp] at h; exact ih h
    · rw [List.dropWhile_cons_of_neg hp] at h
      injection h with h1 _
      subst h1
      exact Bool.eq_false_iff.mpr hp

theorem dropWhile_eq_nil_mem {p : Char → Bool} {l : List Char}
    (h : l.dropWhile p = []) : ∀ c ∈ l, p c = true := by
  induction l with
  | nil => simp
  | cons a l ih =>
    by_cases hp : p a = true
    · rw [List.dropWhile_cons_of_pos hp] at h
      intro c hc
      rcases List.mem_cons.mp hc with rfl | hc
      · exact hp
      · exact ih h c hc
    · rw [List.dropWhile_cons_of_neg hp] at h
      cases h

theorem dropWhile_eq_nil_of_all {p : Char → Bool} {l : List Char}
    (h : ∀ c ∈ l, p c = true) : l.dropWhile p = [] := by
  induction l with
  | nil => rfl
  | cons a l ih =>
    rw [List.dropWhile_cons_of_pos (h a (List.mem_cons_self a l))]
    exact ih fun c hc => h c (List.mem_cons_of_mem a hc)

theorem dropWhile_append_all {p : Char → Bool} {a : List Char} (b : List Char)
    (h : ∀ c ∈ a, p c = true) : (a ++ b).dropWhile p = b.dropWhile p := by
  induction a with
  | nil => simp
  | cons x xs ih =>
    have hx : p x = true := h x (List.mem_cons_self x xs)
    rw [List.cons_append, List.dropWhile_cons_of_pos hx]
    exact ih fun c hc => h c (List.mem_cons_of_mem x hc)

theorem dropWhile_append_ne_nil {p : Char → Bool} {a : List Char} (b : List Char)
    (h : a.dropWhile p ≠ []) : (a ++ b).dropWhile p = a.dropWhile p ++ b := by
  induction a with
  | nil => simp at h
  | cons x xs ih =>
    by_cases hx : p x = true
    · rw [List.dropWhile_cons_of_pos hx] at h
      rw [List.cons_append, List.dropWhile_cons_of_pos hx, List.dropWhile_cons_of_pos hx]
      exact ih h
    · rw [List.cons_append, List.dropWhile_cons_of_neg hx, List.dropWhile_cons_of_neg hx,
        List.cons_append]

theorem dropWhile_eq_self_of_head {p : Char → Bool} {l : List Char}
    (h : ∀ c r, l = c :: r → p c = false) : l.dropWhile p = l := by
  cases l with
  | nil => rfl
  | cons a l2 =>
    have ha := h a l2 rfl
    rw [List.dropWhile_cons_of_neg (by simp [ha])]

/-! ## Character-class facts -/

theorem jsonWs_pySpace {c : Char} (h : jsonWs c = true) : pyIsSpace c = true := by
  simp only [jsonWs, Bool.or_eq_true, beq_iff_eq] at h
  rcases h with ((rfl | rfl) | rfl) | rfl <;> decide

theorem digit_not_space {c : Char} (h : Char.isDigit c = true) : pyIsSpace c = false := by
  cases hs : pyIsSpace c
  · rfl
  · exfalso
    have hm : c ∈ pySpaceChars := List.mem_of_elem_eq_true hs
    have hall : ∀ x ∈ pySpaceChars, Char.isDigit x = false := by decide
    rw [hall c hm] at h
    cases h

theorem digit_ne_backtick {c : Char} (h : Char.isDigit c = true) : c ≠ '`' := by
  intro he
  subst he
  exact absurd h (by decide)

/-! ## pyStrip facts -/

theorem pyStrip_head {t : Text} {c : Char} {r : Text} (h : pyStrip t = c :: r) :
    pyIsSpace c = false := by
  have hc : ((t.dropWhile pyIsSpace).reverse.dropWhile pyIsSpace).reverse = c :: r := h
  have h2 := congrArg List.reverse hc
  rw [List.reverse_reverse, List.reverse_cons] at h2
  have base := List.takeWhile_append_dropWhile pyIsSpace (t.dropWhile pyIsSpace).reverse
  rw [h2] at base
  have hY := congrArg List.reverse base
  rw [List.reverse_reverse, List.reverse_append, List.reverse_append, List.reverse_cons,
    List.reverse_nil, List.nil_append, List.reverse_reverse] at hY
  exact dropWhile_head_false hY.symm

theorem pyStrip_last {t : Text} {c : Char} {r : Text} (h : (pyStrip t).reverse = c :: r) :
    pyIsSpace c = false := by
  have hc : (t.dropWhile pyIsSpace).reverse.dropWhile pyIsSpace = c :: r := by
    rw [← List.reverse_reverse ((t.dropWhile pyIsSpace).reverse.dropWhile pyIsSpace)]
    exact h
  exact dropWhile_head_false hc

theorem pyStrip_eq_self {t : Text}
    (h1 : ∀ c r, t = c :: r → pyIsSpace c = false)
    (h2 : ∀ c r, t.reverse = c :: r → pyIsSpace c = false) : pyStrip t = t := by
  show ((t.dropWhile pyIsSpace).reverse.dropWhile pyIsSpace).reverse = t
  rw [dropWhile_eq_self_of_head h1, dropWhile_eq_self_of_head h2, List.reverse_reverse]

theorem pyStrip_idem (t : Text) : pyStrip (pyStrip t) = pyStrip t := by
  apply pyStrip_eq_self
  · intro c r h; exact pyStrip_head h
  · intro c r h; exact pyStrip_last h

theorem pyStrip_pad {w1 w2 : Text} (t : Text)
    (hw1 : ∀ c ∈ w1, pyIsSpace c = true) (hw2 : ∀ c ∈ w2, pyIsSpace c = true) :
    pyStrip (w1 ++ (t ++ w2)) = pyStrip t := by
  show (((w1 ++ (t ++ w2)).dropWhile pyIsSpace).reverse.dropWhile pyIsSpace).reverse
    = ((t.dropWhile pyIsSpace).reverse.dropWhile pyIsSpace).reverse
  rw [dropWhile_append_all (t ++ w2) hw1]
  by_cases h : t.dropWhile pyIsSpace = []
  · rw [dropWhile_append_all w2 (dropWhile_eq_nil_mem h), h,
      dropWhile_eq_nil_of_all hw2]
  · rw [dropWhile_append_ne_nil w2 h, List.reverse_append,
      dropWhile_append_all (t.dropWhile pyIsSpace).reverse
        (fun c hc => hw2 c (List.mem_reverse.mp hc))]

/-! ## Consumed-input lemmas for the number and string scanners -/

theorem cons_digits_concat {c0 : Char} {tw : Text}
    (hall : ∀ x ∈ tw, Char.isDigit x = true) (hc : Char.isDigit c0 = true) :
    ∃ u d, c0 :: tw = u ++ [d] ∧ Char.isDigit d = true := by
  rcases List.eq_nil_or_concat tw with rfl | ⟨L, b, rfl⟩
  · exact ⟨[], c0, rfl, hc⟩
  · refine ⟨c0 :: L, b, by simp [List.concat_eq_append], ?_⟩
    exact hall b (by simp [List.concat_eq_append])

theorem takeWhile_digits (r : Text) :
    ∀ x ∈ r.takeWhile Char.isDigit, Char.isDigit x = true :=
  fun _ hx => List.mem_takeWhile_imp hx

theorem parseIntPart_split {t i ri : Text} (h : parseIntPart t = some (i, ri)) :
    (∃ u d, i = u ++ [d] ∧ Char.isDigit d = true) ∧ t = i ++ ri := by
  cases t with
  | nil => simp [parseIntPart] at h
  | cons c r0 =>
    simp only [parseIntPart] at h
    split_ifs at h with h0 hd
    · injection h with h1
      injection h1 with h1 h2
      subst h0; subst h1; subst h2
      exact ⟨⟨[], '0', rfl, by decide⟩, rfl⟩
    · injection h with h1
      injection h1 with h1 h2
      subst h1; subst h2
      refine ⟨cons_digits_concat (takeWhile_digits r0) hd, ?_⟩
      rw [List.cons_append, List.takeWhile_append_dropWhile]

theorem parseFracPart_split {t f r2 : Text} (h : parseFracPart t = (f, r2)) :
    (f = [] ∧ r2 = t) ∨
    ((∃ u d, f = u ++ [d] ∧ Char.isDigit d = true) ∧ t = f ++ r2) := by
  rw [parseFracPart.eq_def] at h
  split at h
  · rename_i c r
    split_ifs at h with hd
    · injection h with h1 h2
      subst h1; subst h2
      right
      refine ⟨?_, ?_⟩
      · obtain ⟨u, d, hu, hd2⟩ := cons_digits_concat (takeWhile_digits r) hd
        exact ⟨'.' :: u, d, by simp [hu], hd2⟩
      · rw [List.cons_append, List.cons_append, List.takeWhile_append_dropWhile]
    · injection h with h1 h2
      subst h1; subst h2
      exact Or.inl ⟨rfl, rfl⟩
  · injection h with h1 h2
    subst h1; subst h2
    exact Or.inl ⟨rfl, rfl⟩

theorem parseExpPart_split {t f r2 : Text} (h : parseExpPart t = (f, r2)) :
    (f = [] ∧ r2 = t) ∨
    ((∃ u d, f = u ++ [d] ∧ Char.isDigit d = true) ∧ t = f ++ r2) := by
  rw [parseExpPart.eq_def] at h
  split at h
  · rename_i e rest
    split at h
    · split at h
      · rename_i s r2x
        split at h
        · split at h
          · rename_i c r3
            split at h
            · rename_i hd
              injection h with h1 h2
              subst h1; subst h2
              right
              refine ⟨?_, ?_⟩
              · obtain ⟨u, d, hu, hd2⟩ := cons_digits_concat (takeWhile_digits r3) hd
                exact ⟨e :: s :: u, d, by simp [hu], hd2⟩
              · simp [List.takeWhile_append_dropWhile]
            · injection h with h1 h2
              subst h1; subst h2
              exact Or.inl ⟨rfl, rfl⟩
          · injection h with h1 h2
            subst h1; subst h2
            exact Or.inl ⟨rfl, rfl⟩
        · split at h
          · rename_i hsd
            injection h with h1 h2
            subst h1; subst h2
            right
            refine ⟨?_, ?_⟩
            · obtain ⟨u, d, hu, hd2⟩ := cons_digits_concat (takeWhile_digits r2x) hsd
              exact ⟨e :: u, d, by simp [hu], hd2⟩
            · simp [List.takeWhile_append_dropWhile]
          · injection h with h1 h2
            subst h1; subst h2
            exact Or.inl ⟨rfl, rfl⟩
      · injection h with h1 h2
        subst h1; subst h2
        exact Or.inl ⟨rfl, rfl⟩
    · injection h with h1 h2
      subst h1; subst h2
      exact Or.inl ⟨rfl, rfl⟩
  · injection h with h1 h2
    subst h1; subst h2
    exact Or.inl ⟨rfl, rfl⟩

theorem intFracExp_split {t0 i ri : Text} (hip : parseIntPart t0 = some (i, ri)) :
    ∃ u c, Char.isDigit c = true ∧
      i ++ ((parseFracPart ri).1 ++ (parseExpPart (parseFracPart ri).2).1) = u ++ [c] ∧
      t0 = u ++ c :: (parseExpPart (parseFracPart ri).2).2 := by
  obtain ⟨⟨ui, di, hi, hdi⟩, hti⟩ := parseIntPart_split hip
  rcases hfr : parseFracPart ri with ⟨f1, f2⟩
  rcases hex : parseExpPart f2 with ⟨e1, e2⟩
  have hriq : ri = f1 ++ f2 := by
    rcases parseFracPart_split hfr with ⟨rfl, rfl⟩ | ⟨_, hq⟩
    · rfl
    · exact hq
  have hf2q : f2 = e1 ++ e2 := by
    rcases parseExpPart_split hex with ⟨rfl, rfl⟩ | ⟨_, hq⟩
    · rfl
    · exact hq
  rcases parseExpPart_split hex with ⟨he1, _⟩ | ⟨⟨ue, de, hue, hde⟩, _⟩
  · rcases parseFracPart_split hfr with ⟨hf1, _⟩ | ⟨⟨uf, df, huf, hdf⟩, _⟩
    · refine ⟨ui, di, hdi, ?_, ?_⟩
      · simp [hf1, he1, hi]
      · rw [hti, hriq, hf1, hf2q, he1]
        simp [hi]
    · refine ⟨i ++ uf, df, hdf, ?_, ?_⟩
      · simp [huf, he1]
      · rw [hti, hriq, huf, hf2q, he1]
        simp
  · refine ⟨i ++ f1 ++ ue, de, hde, ?_, ?_⟩
    · simp [hue]
    · rw [hti, hriq, hf2q, hue]
      simp

theorem parseNumber_split {t lex r : Text} (h : parseNumber t = some (lex, r)) :
    ∃ u c, t = u ++ c :: r ∧ Char.isDigit c = true := by
  rw [parseNumber.eq_def] at h
  split at h
  · rename_i r1
    rcases hip : parseIntPart r1 with _ | ⟨i, ri⟩
    · rw [hip] at h; simp at h
    · rw [hip] at h
      simp only [Option.some.injEq, Prod.mk.injEq] at h
      obtain ⟨h1, h2⟩ := h
      obtain ⟨u, c, hdc, hlex, ht0⟩ := intFracExp_split hip
      refine ⟨'-' :: u, c, ?_, hdc⟩
      rw [ht0, ← h2]
      rfl
  · rcases hip : parseIntPart t with _ | ⟨i, ri⟩
    · rw [hip] at h; simp at h
    · rw [hip] at h
      simp only [Option.some.injEq, Prod.mk.injEq] at h
      obtain ⟨h1, h2⟩ := h
      obtain ⟨u, c, hdc, hlex, ht0⟩ := intFracExp_split hip
      refine ⟨u, c, ?_, hdc⟩
      rw [ht0, ← h2]

theorem parseIntPart_head {t i ri : Text} (h : parseIntPart t = some (i, ri)) :
    ∃ c r0, t = c :: r0 ∧ Char.isDigit c = true := by
  cases t with
  | nil => simp [parseIntPart] at h
  | cons c r0 =>
    refine ⟨c, r0, rfl, ?_⟩
    simp only [parseIntPart] at h
    split_ifs at h with h0 hd
    · subst h0; decide
    · exact hd

theorem parseNumber_head {t lex r : Text} (h : parseNumber t = some (lex, r)) :
    ∃ c r0, t = c :: r0 ∧ (c = '-' ∨ Char.isDigit c = true) := by
  rw [parseNumber.eq_def] at h
  split at h
  · rename_i r1
    exact ⟨'-', r1, rfl, Or.inl rfl⟩
  · rcases hip : parseIntPart t with _ | ⟨i, r1⟩
    · rw [hip] at h; simp at h
    · obtain ⟨c, r0, ht, hd⟩ := parseIntPart_head hip
      exact ⟨c, r0, ht, Or.inr hd⟩

theorem parseStr_family (fuel : Nat) :
    (∀ t acc s r, parseStr fuel t acc = some (s, r) → ∃ u, t = u ++ '"' :: r) ∧
    (∀ t acc s r, parseEsc fuel t acc = some (s, r) → ∃ u, t = u ++ '"' :: r) ∧
    (∀ n t acc s r, parseUPair fuel n t acc = some (s, r) → ∃ u, t = u ++ '"' :: r) ∧
    (∀ t acc s r, parseUEsc fuel t acc = some (s, r) → ∃ u, t = u ++ '"' :: r) := by
  induction fuel with
  | zero =>
    refine ⟨?_, ?_, ?_, ?_⟩
    · intro t acc s r h; rw [show parseStr 0 t acc = none from rfl] at h; cases h
    · intro t acc s r h; rw [show parseEsc 0 t acc = none from rfl] at h; cases h
    · intro n t acc s r h; rw [show parseUPair 0 n t acc = none from rfl] at h; cases h
    · intro t acc s r h; rw [show parseUEsc 0 t acc = none from rfl] at h; cases h
  | succ fuel ih =>
    obtain ⟨ihS, ihE, ihP, ihU⟩ := ih
    refine ⟨?_, ?_, ?_, ?_⟩
    · intro t acc s r h
      cases t with
      | nil => rw [show parseStr (fuel + 1) [] acc = none from rfl] at h; cases h
      | cons c r0 =>
        simp only [parseStr] at h
        split_ifs at h with hq hb hctl
        · injection h with hp
          injection hp with hp1 hp2
          subst hp2; subst hq
          exact ⟨[], rfl⟩
        · obtain ⟨u, hu⟩ := ihE _ _ _ _ h
          exact ⟨c :: u, by simp [hu]⟩
        · obtain ⟨u, hu⟩ := ihS _ _ _ _ h
          exact ⟨c :: u, by simp [hu]⟩
    · intro t acc s r h
      cases t with
      | nil => rw [show parseEsc (fuel + 1) [] acc = none from rfl] at h; cases h
      | cons e r2 =>
        simp only [parseEsc] at h
        split_ifs at h with h1 h2 h3 h4 h5 h6 h7 h8 h9
        · obtain ⟨u, hu⟩ := ihS _ _ _ _ h
          exact ⟨e :: u, by simp [hu]⟩
        · obtain ⟨u, hu⟩ := ihS _ _ _ _ h
          exact ⟨e :: u, by simp [hu]⟩
        · obtain ⟨u, hu⟩ := ihS _ _ _ _ h
          exact ⟨e :: u, by simp [hu]⟩
        · obtain ⟨u, hu⟩ := ihS _ _ _ _ h
          exact ⟨e :: u, by simp [hu]⟩
        · obtain ⟨u, hu⟩ := ihS _ _ _ _ h
          exact ⟨e :: u, by simp [hu]⟩
        · obtain ⟨u, hu⟩ := ihS _ _ _ _ h
          exact ⟨e :: u, by simp [hu]⟩
        · obtain ⟨u, hu⟩ := ihS _ _ _ _ h
          exact ⟨e :: u, by simp [hu]⟩
        · obtain ⟨u, hu⟩ := ihS _ _ _ _ h
          exact ⟨e :: u, by simp [hu]⟩
        · obtain ⟨u, hu⟩ := ihU _ _ _ _ h
          exact ⟨e :: u, by simp [hu]⟩
    · intro n t acc s r h
      simp only [parseUPair] at h
      split at h
      · rename_i x y r4
        split at h
        · split at h
          · rename_i a2 b2 c3 d2 r5
            split at h
            · cases h
            · rename_i n2
              split at h
              · obtain ⟨u, hu⟩ := ihS _ _ _ _ h
                exact ⟨x :: y :: a2 :: b2 :: c3 :: d2 :: u, by simp [hu]⟩
              · obtain ⟨u, hu⟩ := ihS _ _ _ _ h
                exact ⟨u, hu⟩
          · cases h
        · obtain ⟨u, hu⟩ := ihS _ _ _ _ h
          exact ⟨u, hu⟩
      · obtain ⟨u, hu⟩ := ihS _ _ _ _ h
        exact ⟨u, hu⟩
    · intro t acc s r h
      rcases t with _ | ⟨a, _ | ⟨b, _ | ⟨c2, _ | ⟨d, r3⟩⟩⟩⟩
      · rw [show parseUEsc (fuel + 1) [] acc = none from rfl] at h; cases h
      · rw [show parseUEsc (fuel + 1) [a] acc = none from rfl] at h; cases h
      · rw [show parseUEsc (fuel + 1) [a, b] acc = none from rfl] at h; cases h
      · rw [show parseUEsc (fuel + 1) [a, b, c2] acc = none from rfl] at h; cases h
      · simp only [parseUEsc] at h
        split at h
        · cases h
        · rename_i n
          split at h
          · obtain ⟨u, hu⟩ := ihP _ _ _ _ _ h
            exact ⟨a :: b :: c2 :: d :: u, by simp [hu]⟩
          · obtain ⟨u, hu⟩ := ihS _ _ _ _ h
            exact ⟨a :: b :: c2 :: d :: u, by simp [hu]⟩

theorem parseStr_split {fuel : Nat} {t : Text} {acc s : List Nat} {r : Text}
    (h : parseStr fuel t acc = some (s, r)) : ∃ u, t = u ++ '"' :: r :=
  (parseStr_family fuel).1 t acc s r h

/-! ## Consumed-input lemmas for the value parser -/

theorem skipWs_split (t : Text) : ∃ w, (∀ c ∈ w, jsonWs c = true) ∧ t = w ++ skipWs t :=
  ⟨t.takeWhile jsonWs, fun _ hc => List.mem_takeWhile_imp hc,
    (List.takeWhile_append_dropWhile jsonWs t).symm⟩

set_option maxHeartbeats 2000000 in
/-- A successful `parseValue` begins at a character that is not whitespace and
not a backtick (it is a brace, bracket, quote, keyword letter, sign or digit). -/
theorem parseValue_head {fuel : Nat} {t : Text} {v : JVal} {r : Text}
    (h : parseValue fuel t = some (v, r)) :
    ∃ c r0, t = c :: r0 ∧ pyIsSpace c = false ∧ c ≠ '`' := by
  match fuel with
  | 0 => rw [show parseValue 0 t = none from rfl] at h; cases h
  | fuel + 1 =>
    cases t with
    | nil => rw [show parseValue (fuel + 1) [] = none from rfl] at h; cases h
    | cons c r0 =>
      refine ⟨c, r0, rfl, ?_⟩
      simp only [parseValue] at h
      split_ifs at h with h1 h2 h3 h4 h4a h5 h5a h6 h6a h7 h7a h8 h8a h9
      · subst h1; exact ⟨by decide, by decide⟩
      · subst h2; exact ⟨by decide, by decide⟩
      · subst h3; exact ⟨by decide, by decide⟩
      · subst h4; exact ⟨by decide, by decide⟩
      · subst h5; exact ⟨by decide, by decide⟩
      · subst h6; exact ⟨by decide, by decide⟩
      · subst h7; exact ⟨by decide, by decide⟩
      · subst h8; exact ⟨by decide, by decide⟩
      · obtain ⟨h9a, _⟩ := h9
        subst h9a; exact ⟨by decide, by decide⟩
      · split at h
        · rename_i lex r2 hpn
          obtain ⟨ch, rh, hth, hcd⟩ := parseNumber_head hpn
          injection hth with hch hrh
          subst hch
          rcases hcd with rfl | hd
          · exact ⟨by decide, by decide⟩
          · exact ⟨digit_not_space hd, digit_ne_backtick hd⟩
        · cases h

set_option maxHeartbeats 4000000 in
/-- A successful parse consumes a nonempty chunk whose final character is not
whitespace and not a backtick (it is a closing brace or bracket, a closing
quote, a keyword letter or a digit). -/
theorem parse_split (fuel : Nat) :
    (∀ t v r, parseValue fuel t = some (v, r) →
        ∃ u c, t = u ++ c :: r ∧ pyIsSpace c = false ∧ c ≠ '`') ∧
    (∀ t v r, parseObjBody fuel t = some (v, r) → ∃ u, t = u ++ '}' :: r) ∧
    (∀ t acc v r, parseMembers fuel t acc = some (v, r) → ∃ u, t = u ++ '}' :: r) ∧
    (∀ t v r, parseArrBody fuel t = some (v, r) → ∃ u, t = u ++ ']' :: r) ∧
    (∀ t acc v r, parseElems fuel t acc = some (v, r) → ∃ u, t = u ++ ']' :: r) := by
  induction fuel with
  | zero =>
    refine ⟨?_, ?_, ?_, ?_, ?_⟩
    · intro t v r h; rw [show parseValue 0 t = none from rfl] at h; cases h
    · intro t v r h; rw [show parseObjBody 0 t = none from rfl] at h; cases h
    · intro t acc v r h; rw [show parseMembers 0 t acc = none from rfl] at h; cases h
    · intro t v r h; rw [show parseArrBody 0 t = none from rfl] at h; cases h
    · intro t acc v r h; rw [show parseElems 0 t acc = none from rfl] at h; cases h
  | succ fuel ih =>
    obtain ⟨ihV, ihO, ihM, ihA, ihE⟩ := ih
    refine ⟨?_, ?_, ?_, ?_, ?_⟩
    · intro t v r h
      cases t with
      | nil => rw [show parseValue (fuel + 1) [] = none from rfl] at h; cases h
      | cons c r0 =>
        simp only [parseValue] at h
        split_ifs at h with h1 h2 h3 h4 h4a h5 h5a h6 h6a h7 h7a h8 h8a h9
        · obtain ⟨u, hu⟩ := ihO _ _ _ h
          subst h1
          exact ⟨'{' :: u, '}', by simp [hu], by decide, by decide⟩
        · obtain ⟨u, hu⟩ := ihA _ _ _ h
          subst h2
          exact ⟨'[' :: u, ']', by simp [hu], by decide, by decide⟩
        · split at h
          · rename_i s2 r2 hps
            injection h with hp
            injection hp with hp1 hp2
            obtain ⟨u, hu⟩ := parseStr_split hps
            subst h3; subst hp2
            exact ⟨'"' :: u, '"', by simp [hu], by decide, by decide⟩
          · cases h
        · injection h with hp
          injection hp with hp1 hp2
          have h0 := (List.take_append_drop 3 r0).symm
          rw [h4a, hp2] at h0
          subst h4
          exact ⟨['n', 'u', 'l'], 'l', by simp [h0], by decide, by decide⟩
        · injection h with hp
          injection hp with hp1 hp2
          have h0 := (List.take_append_drop 3 r0).symm
          rw [h5a, hp2] at h0
          subst h5
          exact ⟨['t', 'r', 'u'], 'e', by simp [h0], by decide, by decide⟩
        · injection h with hp
          injection hp with hp1 hp2
          have h0 := (List.take_append_drop 4 r0).symm
          rw [h6a, hp2] at h0
          subst h6
          exact ⟨['f', 'a', 'l', 's'], 'e', by simp [h0], by decide, by decide⟩
        · injection h with hp
          injection hp with hp1 hp2
          have h0 := (List.take_append_drop 2 r0).symm
          rw [h7a, hp2] at h0
          subst h7
          exact ⟨['N', 'a'], 'N', by simp [h0], by decide, by decide⟩
        · injection h with hp
          injection hp with hp1 hp2
          have h0 := (List.take_append_drop 7 r0).symm
          rw [h8a, hp2] at h0
          subst h8
          exact ⟨['I', 'n', 'f', 'i', 'n', 'i', 't'], 'y', by simp [h0], by decide,
            by decide⟩
        · obtain ⟨h9a, h9b⟩ := h9
          injection h with hp
          injection hp with hp1 hp2
          have h0 := (List.take_append_drop 8 r0).symm
          rw [h9b, hp2] at h0
          subst h9a
          exact ⟨['-', 'I', 'n', 'f', 'i', 'n', 'i', 't'], 'y', by simp [h0], by decide,
            by decide⟩
        · split at h
          · rename_i lex r2 hpn
            injection h with hp
            injection hp with hp1 hp2
            obtain ⟨u, cd, hu, hdd⟩ := parseNumber_split hpn
            subst hp2
            exact ⟨u, cd, hu, digit_not_space hdd, digit_ne_backtick hdd⟩
          · cases h
    · intro t v r h
      simp only [parseObjBody] at h
      split at h
      · rename_i c r0 hsw
        obtain ⟨w, _, hw⟩ := skipWs_split t
        rw [hsw] at hw
        split_ifs at h with hc
        · injection h with hp
          injection hp with hp1 hp2
          subst hc; subst hp2
          exact ⟨w, hw⟩
        · obtain ⟨u, hu⟩ := ihM _ _ _ _ h
          rw [hu] at hw
          exact ⟨w ++ u, by rw [hw]; simp⟩
      · cases h
    · intro t acc v r h
      simp only [parseMembers] at h
      split at h
      · rename_i c r0
        split_ifs at h with hc
        split at h
        · rename_i key r1 hps
          split at h
          · rename_i d r2 hsw1
            split_ifs at h with hd
            split at h
            · rename_i v0 r3 hpv
              split at h
              · rename_i e r4 hsw3
                obtain ⟨u1, hu1⟩ := parseStr_split hps
                obtain ⟨w1, _, hw1⟩ := skipWs_split r1
                rw [hsw1] at hw1
                obtain ⟨w2, _, hw2⟩ := skipWs_split r2
                obtain ⟨u2, c2, hu2, _, _⟩ := ihV _ _ _ hpv
                rw [hu2] at hw2
                obtain ⟨w3, _, hw3⟩ := skipWs_split r3
                rw [hsw3] at hw3
                split_ifs at h with he hcm
                · injection h with hp
                  injection hp with hp1 hp2
                  subst hc; subst hd; subst he; subst hp2
                  refine ⟨'"' :: u1 ++ '"' :: w1 ++ ':' :: w2 ++ u2 ++ c2 :: w3, ?_⟩
                  rw [hu1, hw1, hw2, hw3]
                  simp
                · obtain ⟨u4, hu4⟩ := ihM _ _ _ _ h
                  obtain ⟨w4, _, hw4⟩ := skipWs_split r4
                  rw [hu4] at hw4
                  subst hc; subst hd; subst hcm
                  refine ⟨'"' :: u1 ++ '"' :: w1 ++ ':' :: w2 ++ u2 ++ c2 :: w3 ++
                    ',' :: w4 ++ u4, ?_⟩
                  rw [hu1, hw1, hw2, hw3, hw4]
                  simp
              · cases h
            · cases h
          · cases h
        · cases h
      · cases h
    · intro t v r h
      simp only [parseArrBody] at h
      split at h
      · rename_i c r0 hsw
        obtain ⟨w, _, hw⟩ := skipWs_split t
        rw [hsw] at hw
        split_ifs at h with hc
        · injection h with hp
          injection hp with hp1 hp2
          subst hc; subst hp2
          exact ⟨w, hw⟩
        · obtain ⟨u, hu⟩ := ihE _ _ _ _ h
          rw [hu] at hw
          exact ⟨w ++ u, by rw [hw]; simp⟩
      · cases h
    · intro t acc v r h
      simp only [parseElems] at h
      split at h
      · rename_i v0 r0 hpv
        split at h
        · rename_i c r2 hsw
          obtain ⟨u0, c0, hu0, _, _⟩ := ihV _ _ _ hpv
          obtain ⟨w, _, hw⟩ := skipWs_split r0
          rw [hsw] at hw
          split_ifs at h with hc hcm
          · injection h with hp
            injection hp with hp1 hp2
            subst hc; subst hp2
            refine ⟨u0 ++ c0 :: w, ?_⟩
            rw [hu0, hw]
            simp
          · obtain ⟨u4, hu4⟩ := ihE _ _ _ _ h
            obtain ⟨w4, _, hw4⟩ := skipWs_split r2
            rw [hu4] at hw4
            subst hcm
            refine ⟨u0 ++ c0 :: w ++ ',' :: w4 ++ u4, ?_⟩
            rw [hu0, hw, hw4]
            simp
        · cases h
      · cases h

/-! ## Fence tests and the central extraction lemma -/

theorem startsWith_fence_false {t : Text} {c : Char} {r : Text}
    (ht : t = c :: r) (hc : c ≠ '`') :
    startsWith t jsonFence = false ∧ startsWith t fence = false := by
  subst ht
  have hb : ('`' == c) = false := beq_eq_false_iff_ne.mpr (Ne.symm hc)
  constructor
  · show isPrefixList jsonFence (c :: r) = false
    simp [jsonFence, isPrefixList, hb]
  · show isPrefixList fence (c :: r) = false
    simp [fence, isPrefixList, hb]

theorem endsWith_fence_false {t : Text} {c : Char} {r : Text}
    (ht : t.reverse = c :: r) (hc : c ≠ '`') : endsWith t fence = false := by
  have hb : ('`' == c) = false := beq_eq_false_iff_ne.mpr (Ne.symm hc)
  show isPrefixList fence.reverse t.reverse = false
  have hfr : fence.reverse = ['`', '`', '`'] := rfl
  rw [hfr, ht]
  simp [isPrefixList, hb]

theorem endsWith_iff (t pat : Text) : endsWith t pat = true ↔ ∃ u, t = u ++ pat := by
  show isPrefixList pat.reverse t.reverse = true ↔ _
  rw [isPrefixList_iff]
  constructor
  · rintro ⟨q, hq⟩
    refine ⟨q.reverse, ?_⟩
    have h2 := congrArg List.reverse hq
    rwa [List.reverse_reverse, List.reverse_append, List.reverse_reverse] at h2
  · rintro ⟨u, rfl⟩
    exact ⟨u.reverse, by rw [List.reverse_append]⟩

theorem reverse_cons_of_concat {t u : Text} {b : Char} (h : t = u ++ [b]) :
    t.reverse = b :: u.reverse := by
  rw [h]
  simp

/-- A text whose first and last characters are not backticks passes the fence
logic of lines 50-56 untouched. -/
theorem stripFences_id {t : Text} {c cl : Char} {r rl : Text}
    (hhead : t = c :: r) (hc : c ≠ '`') (hlast : t.reverse = cl :: rl) (hcl : cl ≠ '`') :
    stripFences t = t := by
  obtain ⟨hs1, hs2⟩ := startsWith_fence_false hhead hc
  have he := endsWith_fence_false hlast hcl
  unfold stripFences
  simp [hs1, hs2, he]

/-- Central success lemma: when the trimmed input parses as JSON, `extract`
returns exactly that parse (lines 46-62 of the source).  The fence stripping
cannot fire: a parseable text starts with a value character and ends with a
value character, never a backtick, and it carries no outer whitespace after
`strip`. -/
theorem extract_of_loads {T : Text} {v : JVal} (h : loads (pyStrip T) = some v) :
    extract T = .success v := by
  have h0 := h
  unfold loads at h
  have hsw : skipWs (pyStrip T) = pyStrip T := by
    apply dropWhile_eq_self_of_head
    intro c r hc
    cases hj : jsonWs c
    · rfl
    · exfalso
      have hsp := jsonWs_pySpace hj
      rw [pyStrip_head hc] at hsp
      cases hsp
  rw [hsw] at h
  split at h
  case h_2 => cases h
  case h_1 v0 rest hpv =>
    split_ifs at h with hrest
    injection h with hv0
    obtain ⟨u, c2, hu, hns, hnb⟩ := (parse_split _).1 _ _ _ hpv
    obtain ⟨ch, rh, hh, hns2, hnb2⟩ := parseValue_head hpv
    have hrestnil : rest = [] := by
      rcases List.eq_nil_or_concat rest with hnil | ⟨L, b, hLb⟩
      · exact hnil
      · exfalso
        have hws := dropWhile_eq_nil_mem hrest
        have hbmem : b ∈ rest := by rw [hLb, List.concat_eq_append]; simp
        have hbws : pyIsSpace b = true := jsonWs_pySpace (hws b hbmem)
        have hcat : pyStrip T = (u ++ c2 :: L) ++ [b] := by
          rw [hu, hLb, List.concat_eq_append]
          simp
        have hlast := pyStrip_last (reverse_cons_of_concat hcat)
        rw [hlast] at hbws
        cases hbws
    subst hrestnil
    have hcat2 : pyStrip T = u ++ [c2] := hu
    have hsf := stripFences_id hh hnb2 (reverse_cons_of_concat hcat2) hnb
    unfold extract
    rw [hsf, pyStrip_idem, h0]

/-! ## Fenced wrappers -/

theorem endsWith_take {t1 y : Text} (h : t1 = y ++ fence) :
    (if endsWith t1 fence then t1.take (t1.length - 3) else t1) = y := by
  have he : endsWith t1 fence = true := (endsWith_iff t1 fence).mpr ⟨y, h⟩
  rw [he]
  simp only [if_true]
  subst h
  have hl : (y ++ fence).length - 3 = y.length := by simp [fence]
  rw [hl, List.take_left]

theorem stripFences_fencedTag_json (T : Text) :
    stripFences (fencedTag jsonTag T) = '\n' :: (T ++ ['\n']) := by
  have hs : startsWith (fencedTag jsonTag T) jsonFence = true := rfl
  have hdrop : (fencedTag jsonTag T).drop 7 = ('\n' :: (T ++ ['\n'])) ++ fence := by
    show '\n' :: (T ++ ['\n', '`', '`', '`']) = ('\n' :: (T ++ ['\n'])) ++ fence
    simp [fence]
  unfold stripFences
  rw [hs]
  simp only [if_true]
  rw [hdrop]
  exact endsWith_take rfl

theorem stripFences_fencedTag_plain (T : Text) :
    stripFences (fencedTag [] T) = '\n' :: (T ++ ['\n']) := by
  have hs : startsWith (fencedTag [] T) jsonFence = false := rfl
  have hs2 : startsWith (fencedTag [] T) fence = true := rfl
  have hdrop : (fencedTag [] T).drop 3 = ('\n' :: (T ++ ['\n'])) ++ fence := by
    show '\n' :: (T ++ ['\n', '`', '`', '`']) = ('\n' :: (T ++ ['\n'])) ++ fence
    simp [fence]
  unfold stripFences
  rw [hs, hs2]
  simp only [if_true, Bool.false_eq_true, if_false]
  rw [hdrop]
  exact endsWith_take rfl

theorem pyStrip_fencedTag (tag T : Text) :
    pyStrip (fencedTag tag T) = fencedTag tag T := by
  have hcat : fencedTag tag T =
      ('`' :: '`' :: '`' :: (tag ++ '\n' :: (T ++ ['\n', '`', '`']))) ++ ['`'] := by
    show '`' :: '`' :: '`' :: (tag ++ '\n' :: (T ++ ['\n', '`', '`', '`'])) = _
    simp
  apply pyStrip_eq_self
  · intro c r hc
    have hfc : fencedTag tag T =
        '`' :: ('`' :: '`' :: (tag ++ '\n' :: (T ++ ['\n', '`', '`', '`']))) := rfl
    rw [hfc] at hc
    injection hc with h1 _
    rw [← h1]
    decide
  · intro c r hc
    rw [reverse_cons_of_concat hcat] at hc
    injection hc with h1 _
    rw [← h1]
    decide

theorem extract_fenced_json {T : Text} {v : JVal} (h : loads (pyStrip T) = some v) :
    extract (fencedTag jsonTag T) = .success v := by
  unfold extract
  rw [pyStrip_fencedTag, stripFences_fencedTag_json]
  have hpad : pyStrip ('\n' :: (T ++ ['\n'])) = pyStrip T := by
    show pyStrip (['\n'] ++ (T ++ ['\n'])) = pyStrip T
    exact pyStrip_pad T (by decide) (by decide)
  rw [hpad, h]

theorem extract_fenced_plain {T : Text} {v : JVal} (h : loads (pyStrip T) = some v) :
    extract (fencedTag [] T) = .success v := by
  unfold extract
  rw [pyStrip_fencedTag, stripFences_fencedTag_plain]
  have hpad : pyStrip ('\n' :: (T ++ ['\n'])) = pyStrip T := by
    show pyStrip (['\n'] ++ (T ++ ['\n'])) = pyStrip T
    exact pyStrip_pad T (by decide) (by decide)
  rw [hpad, h]

/-! ## Substring facts for the unmatched-fence analysis -/

theorem hasSub_append (u pat : Text) : hasSub (u ++ pat) pat = true := by
  induction u with
  | nil =>
    cases pat with
    | nil => rfl
    | cons c r =>
      show hasSub (c :: r) (c :: r) = true
      have hp : isPrefixList (c :: r) (c :: r) = true :=
        (isPrefixList_iff _ _).mpr ⟨[], by simp⟩
      simp [hasSub, hp]
  | cons a u ih =>
    show hasSub (a :: (u ++ pat)) pat = true
    simp [hasSub, ih]

theorem hasSub_drop {l pat : Text} (n : Nat) (h : hasSub (l.drop n) pat = true) :
    hasSub l pat = true := by
  induction n generalizing l with
  | zero => exact h
  | succ n ih =>
    cases l with
    | nil => exact h
    | cons c r =>
      have h2 : hasSub r pat = true := ih h
      simp [hasSub, h2]

/-! ## The claims -/

/-- C1: for every string whose whitespace-trimmed form is a valid JSON object
text, the extraction step returns Success wrapping exactly the value obtained
by strict JSON parsing of the trimmed text. -/
theorem extract_valid_object (T : Text) (m : List (List Nat × JVal))
    (h : loads (pyStrip T) = some (.obj m)) : extract T = .success (.obj m) :=
  extract_of_loads h

/-- Witness for C1 at the concrete object text `" \x7b"a": 1\x7d "`. -/
theorem extract_valid_object_witness :
    loads (pyStrip exObjText) = some exObjVal ∧ extract exObjText = .success exObjVal :=
  ⟨rfl, extract_valid_object exObjText [([97], .num ['1'])] rfl⟩

/-- C2 counterexample: with the language tag `yaml`, wrapping the JSON object
text `\x7b\x7d` in a fenced block changes the extraction result, because the code
only strips a 7-character prefix for the tag `json` (line 50) and otherwise
only 3 characters (line 52), leaving `yaml` glued to the payload. -/
theorem fenced_tag_counterexample :
    extract (fencedTag yamlTag respObj) ≠ extract respObj := by
  intro hc
  have h1 : extract (fencedTag yamlTag respObj) =
      .malformed (fencedTag yamlTag respObj) := rfl
  have h2 : extract respObj = .success (.obj []) := rfl
  rw [h1, h2] at hc
  cases hc

/-- C2 (amended): fenced wrapping preserves the extraction result for the
language tag `json` and for a bare fence, provided the wrapped text itself
parses as JSON after trimming; other language tags are not handled. -/
theorem fenced_json_or_bare_preserves_extract (T : Text) (v : JVal)
    (h : loads (pyStrip T) = some v) :
    extract (fencedTag jsonTag T) = extract T ∧ extract (fencedTag [] T) = extract T := by
  have hT := extract_of_loads h
  exact ⟨by rw [extract_fenced_json h, hT], by rw [extract_fenced_plain h, hT]⟩

/-- Witness for the amended C2 at the object text `\x7b\x7d`. -/
theorem fenced_json_or_bare_preserves_extract_witness :
    loads (pyStrip respObj) = some (.obj []) ∧
    (extract (fencedTag jsonTag respObj) = extract respObj ∧
      extract (fencedTag [] respObj) = extract respObj) :=
  ⟨rfl, fenced_json_or_bare_preserves_extract respObj (.obj []) rfl⟩

/-- C3 counterexample: the trimmed text `"```json\n\x7b"a": 1\x7d"` begins with an
opening fence and has no closing fence, yet the code strips the opening fence
(line 50-51) and parses successfully, whereas processing it as unfenced (no
characters stripped) would fail. -/
theorem unmatched_fence_counterexample :
    pyStrip exFenceOnly = exFenceOnly ∧
    startsWith exFenceOnly fence = true ∧
    hasSub (exFenceOnly.drop 3) fence = false ∧
    extract exFenceOnly ≠ extractNoFence exFenceOnly := by
  refine ⟨rfl, rfl, rfl, ?_⟩
  intro hc
  have h1 : extract exFenceOnly = .success (.obj [([97], .num ['1'])]) := rfl
  have h2 : extractNoFence exFenceOnly = .malformed exFenceOnly := rfl
  rw [h1, h2] at hc
  cases hc

/-- C3 (amended): on a trimmed text that begins with an opening fence and
contains no further fence marker, the opening fence is stripped
unconditionally (no closing fence is required), and the parse attempt is made
on the opening-stripped, re-trimmed text. -/
theorem opening_fence_stripped_unconditionally (T : Text)
    (hs : startsWith (pyStrip T) fence = true)
    (hnc : hasSub ((pyStrip T).drop 3) fence = false) :
    extract T = (match loads (pyStrip (stripOpen (pyStrip T))) with
      | some v => ExtractResult.success v
      | none => ExtractResult.malformed T) := by
  have hfront : (if startsWith (pyStrip T) jsonFence then (pyStrip T).drop 7
      else if startsWith (pyStrip T) fence then (pyStrip T).drop 3 else pyStrip T)
      = stripOpen (pyStrip T) := by
    unfold stripOpen
    by_cases hj : startsWith (pyStrip T) jsonFence = true
    · simp [hj]
    · simp [hj, hs]
  have hne : endsWith (stripOpen (pyStrip T)) fence = false := by
    cases hee : endsWith (stripOpen (pyStrip T)) fence
    · rfl
    · exfalso
      obtain ⟨u, hu⟩ := (endsWith_iff _ _).mp hee
      have hsub : hasSub ((pyStrip T).drop 3) fence = true := by
        by_cases hj : startsWith (pyStrip T) jsonFence = true
        · have hso : stripOpen (pyStrip T) = (pyStrip T).drop 7 := by
            unfold stripOpen
            simp [hj]
          have h7 : ((pyStrip T).drop 3).drop 4 = u ++ fence := by
            rw [List.drop_drop]
            rw [← hso]
            exact hu
          have hx := hasSub_append u fence
          rw [← h7] at hx
          exact hasSub_drop 4 hx
        · have hso : stripOpen (pyStrip T) = (pyStrip T).drop 3 := by
            unfold stripOpen
            simp [hj]
          rw [hso] at hu
          rw [hu]
          exact hasSub_append u fence
      rw [hsub] at hnc
      cases hnc
  have hsf : stripFences (pyStrip T) = stripOpen (pyStrip T) := by
    unfold stripFences
    rw [hfront]
    simp [hne]
  unfold extract
  rw [hsf]

/-- Witness for the amended C3 at the concrete unmatched-fence text. -/
theorem opening_fence_stripped_unconditionally_witness :
    startsWith (pyStrip exFenceOnly) fence = true ∧
    hasSub ((pyStrip exFenceOnly).drop 3) fence = false ∧
    extract exFenceOnly = (match loads (pyStrip (stripOpen (pyStrip exFenceOnly))) with
      | some v => ExtractResult.success v
      | none => ExtractResult.malformed exFenceOnly) :=
  ⟨rfl, rfl, opening_fence_stripped_unconditionally exFenceOnly rfl rfl⟩

/-- C4 (code evaluation at the failing input): the model output `"[1, 2]"`
parses to a JSON array, and the code returns it as a Success value instead of
treating the non-object as a parse failure, contradicting the function's
declared `dict` return contract. -/
theorem extract_array_returned_not_failure :
    extract exArr = .success (.arr [.num ['1'], .num ['2']]) := rfl

/-- C5 counterexample: for the non-JSON input `" x "`, the code returns the
ORIGINAL text `" x "` as the raw text (line 68 uses `response.text`), not the
trimmed text `"x"` the claim requires. -/
theorem malformed_rawtext_counterexample :
    loads (pyStrip exSpaceX) = none ∧
    extract exSpaceX ≠ .malformed (pyStrip exSpaceX) := by
  refine ⟨rfl, ?_⟩
  intro hc
  have h1 : extract exSpaceX = .malformed exSpaceX := rfl
  rw [h1] at hc
  injection hc with h2
  have hne : exSpaceX ≠ pyStrip exSpaceX := by decide
  exact hne h2

/-- C5 (amended): when the cleaned (trimmed, fence-stripped, re-trimmed) text
fails strict JSON parsing, extraction returns the MalformedOutput failure
carrying the original untrimmed input as its raw text; in particular the empty
string is a parse failure, not a crash. -/
theorem extract_malformed_keeps_original_text (T : Text)
    (h : loads (pyStrip (stripFences (pyStrip T))) = none) :
    extract T = .malformed T := by
  unfold extract
  rw [h]

/-- Witness for the amended C5 at the empty input. -/
theorem extract_malformed_keeps_original_text_witness :
    loads (pyStrip (stripFences (pyStrip ([] : Text)))) = none ∧
    extract [] = .malformed [] :=
  ⟨rfl, extract_malformed_keeps_original_text [] rfl⟩

/-- C6 counterexample: an environment whose prompt file raises an exception
other than `FileNotFoundError` (here a `UnicodeDecodeError` from reading a
binary file) escapes the `try` of lines 25-29, which catches only
`FileNotFoundError`, so the call propagates an uncaught exception. -/
theorem prompt_exception_propagates :
    ¬ ∃ res, (analyze_image envBad [] p0).1 = Except.ok res := by
  intro hc
  obtain ⟨res, hr⟩ := hc
  have h1 : (analyze_image envBad [] p0).1 =
      Except.error ("UnicodeDecodeError".toList) := rfl
  rw [h1] at hr
  cases hr

/-- C6 (amended): the pipeline returns a failure value as data for every
payload, prompt path and backend outcome, PROVIDED the prompt load either
succeeds or fails precisely with `FileNotFoundError`; any other prompt-loading
exception propagates uncaught. -/
theorem analyze_no_uncaught_unless_prompt_exn (env : Env) (bytes : List Nat)
    (path : Text) (h : ∀ m, env.promptFS path ≠ .otherError m) :
    ∃ res, (analyze_image env bytes path).1 = Except.ok res := by
  rcases hp : env.promptFS path with ptext | _ | m
  · simp only [analyze_image, hp]
    rcases hb : env.backend ⟨modelName, ptext, bytes, mimeJpeg⟩ with resp | m2
    · simp only [hb]
      rcases he : extract resp with v | raw
      · exact ⟨.parsed v, rfl⟩
      · exact ⟨.parseFailure raw, rfl⟩
    · simp only [hb]
      exact ⟨.apiError m2, rfl⟩
  · exact ⟨.promptNotFound path, by simp [analyze_image, hp]⟩
  · exact absurd hp (h m)

/-- Witness for the amended C6 in the well-behaved environment. -/
theorem analyze_no_uncaught_witness :
    ∃ res, (analyze_image envGood [] p0).1 = Except.ok res :=
  analyze_no_uncaught_unless_prompt_exn envGood [] p0
    (by intro m hm; simp [envGood] at hm)

/-- C7 counterexample: with an empty payload the code performs no validation:
the backend IS invoked (with the empty byte string), and the call returns the
backend-derived result, not an InvalidRequestError failure. -/
theorem empty_payload_reaches_backend :
    (analyze_image envGood [] p0).2.2 ≠ [] ∧
    (analyze_image envGood [] p0).1 = Except.ok (.parsed (.obj [])) := by
  constructor
  · intro hc
    have h1 : (analyze_image envGood [] p0).2.2 =
        [⟨modelName, promptText0, [], mimeJpeg⟩] := rfl
    rw [h1] at hc
    cases hc
  · rfl

/-- C7 (amended): the function validates nothing: whenever the prompt loads,
a request with an empty payload still invokes the backend exactly once,
passing the empty payload through. -/
theorem analyze_no_validation_empty_payload (env : Env) (path ptext : Text)
    (h : env.promptFS path = .ok ptext) :
    (analyze_image env [] path).2.2 = [⟨modelName, ptext, [], mimeJpeg⟩] := by
  simp only [analyze_image, h]
  rcases hb : env.backend ⟨modelName, ptext, [], mimeJpeg⟩ with resp | m2
  · simp only [hb]
    rcases he : extract resp with v | raw
    · rfl
    · rfl
  · simp only [hb]

/-- Witness for the amended C7. -/
theorem analyze_no_validation_empty_payload_witness :
    (analyze_image envGood [] p0).2.2 = [⟨modelName, promptText0, [], mimeJpeg⟩] :=
  analyze_no_validation_empty_payload envGood p0 promptText0 rfl

/-- C8 counterexample: a first call succeeds, yet an identical subsequent call
(the same pure computation, as the code keeps no cache state) still reads the
prompt from storage: its storage-read trace is `[p0]`, not the empty trace the
cached-load claim requires. -/
theorem second_call_reads_storage :
    (analyze_image envGood [] p0).1 = Except.ok (.parsed (.obj [])) ∧
    (analyze_image envGood [] p0).2.1 = [p0] ∧ ([p0] : List Text) ≠ [] := by
  refine ⟨rfl, rfl, ?_⟩
  intro hc
  cases hc

/-- C8 (amended): there is no prompt cache: every invocation, whatever came
before it, performs exactly one storage read of the prompt path (line 26 opens
the file unconditionally). -/
theorem analyze_always_reads_prompt (env : Env) (bytes : List Nat) (path : Text) :
    (analyze_image env bytes path).2.1 = [path] := by
  rcases hp : env.promptFS path with ptext | _ | m
  · simp only [analyze_image, hp]
    rcases hb : env.backend ⟨modelName, ptext, bytes, mimeJpeg⟩ with resp | m2
    · simp only [hb]
      rcases he : extract resp with v | raw
      · rfl
      · rfl
    · simp only [hb]
  · simp [analyze_image, hp]
  · simp [analyze_image, hp]

/-- C9 counterexample: a request carrying PNG content (the PNG magic bytes) is
forwarded to the backend with mimeType `image/jpeg` — the mime type is
hardcoded at line 39 and does not match the payload content. -/
theorem png_payload_sent_as_jpeg :
    (analyze_image envGood pngBytes p0).2.2 =
      [⟨modelName, promptText0, pngBytes, mimeJpeg⟩] ∧
    mimeJpeg ≠ mimePng := by
  exact ⟨rfl, by decide⟩

/-- C9 (amended): every backend invocation receives the loaded prompt text and
the request's payload bytes unchanged, but with the mime type hardcoded to
`image/jpeg` regardless of the payload's actual content. -/
theorem backend_receives_prompt_payload_jpeg (env : Env) (bytes : List Nat)
    (path ptext : Text) (h : env.promptFS path = .ok ptext) :
    (analyze_image env bytes path).2.2 = [⟨modelName, ptext, bytes, mimeJpeg⟩] := by
  simp only [analyze_image, h]
  rcases hb : env.backend ⟨modelName, ptext, bytes, mimeJpeg⟩ with resp | m2
  · simp only [hb]
    rcases he : extract resp with v | raw
    · rfl
    · rfl
  · simp only [hb]

/-- Witness for the amended C9. -/
theorem backend_receives_prompt_payload_jpeg_witness :
    (analyze_image envGood pngBytes p0).2.2 =
      [⟨modelName, promptText0, pngBytes, mimeJpeg⟩] :=
  backend_receives_prompt_payload_jpeg envGood pngBytes p0 promptText0 rfl

/-- C10: a trimmed model output that ends with a closing fence but does not
begin with an opening fence still has the trailing three backticks removed
before the JSON parse attempt (lines 55-56 strip the trailing fence without
requiring a matching opening fence). -/
theorem trailing_fence_stripped_without_opening (T : Text)
    (hs : startsWith (pyStrip T) fence = false)
    (he : endsWith (pyStrip T) fence = true) :
    extract T = (match loads (pyStrip ((pyStrip T).take ((pyStrip T).length - 3))) with
      | some v => ExtractResult.success v
      | none => ExtractResult.malformed T) := by
  have hsj : startsWith (pyStrip T) jsonFence = false := by
    cases hj : startsWith (pyStrip T) jsonFence
    · rfl
    · exfalso
      obtain ⟨q, hq⟩ := (isPrefixList_iff jsonFence (pyStrip T)).mp hj
      have hf : startsWith (pyStrip T) fence = true := by
        show isPrefixList fence (pyStrip T) = true
        rw [isPrefixList_iff]
        refine ⟨['j', 's', 'o', 'n'] ++ q, ?_⟩
        rw [hq]
        simp [jsonFence, fence]
      rw [hf] at hs
      cases hs
  have hsf : stripFences (pyStrip T) = (pyStrip T).take ((pyStrip T).length - 3) := by
    unfold stripFences
    rw [hsj, hs]
    simp [he]
  unfold extract
  rw [hsf]

/-- Witness for C10 at the concrete input with only a trailing fence. -/
theorem trailing_fence_stripped_without_opening_witness :
    startsWith (pyStrip exTrailFence) fence = false ∧
    endsWith (pyStrip exTrailFence) fence = true ∧
    extract exTrailFence =
      (match loads (pyStrip ((pyStrip exTrailFence).take
          ((pyStrip exTrailFence).length - 3))) with
        | some v => ExtractResult.success v
        | none => ExtractResult.malformed exTrailFence) :=
  ⟨rfl, rfl, trailing_fence_stripped_without_opening exTrailFence rfl rfl⟩

end AIExample
